import Mathlib

/-!
Verification of the retrieval core of the ufcspa-rag-pipeline repository.

The Python sources are shallowly embedded over `List Char` / `String`:
Python strings become `List Char`, Python ints become `Int` (slice and
`str.rfind` indices may be negative and are clamped exactly as Python's
slice notation does), regular-expression substitutions become explicit
left-to-right scanners, and the unbounded `while` loops of the chunkers
become fuel-indexed recursions returning `none` when the fuel runs out
(so `∀ fuel, loop fuel = none` expresses divergence of the source loop).
Character-class predicates (`\s`, `\w`, `[A-Za-zÀ-ÿ]`) are modelled on
the fragment Python's `re` gives them over the Latin-1 range, which is
the range every input considered here lives in.
-/

/-- Python's default whitespace set (`str.strip`, `\s`) restricted to its
ASCII fragment: space, tab, newline, carriage return, vertical tab, form feed. -/
def isPySpaceB (c : Char) : Bool :=
  c == ' ' || c == '\t' || c == '\n' || c == '\x0d' || c == '\x0b' || c == '\x0c'

/-- Leading character of a list is Python whitespace. -/
def hasLeadWs : List Char → Bool
  | [] => false
  | c :: _ => isPySpaceB c

/-- The list starts or ends with Python whitespace (`raw.strip()` would drop
something). -/
def hasEdgeWs (l : List Char) : Bool :=
  hasLeadWs l || hasLeadWs l.reverse

/-- Python `str.strip()`: drop leading and trailing whitespace. -/
def pyStrip (l : List Char) : List Char :=
  ((l.dropWhile isPySpaceB).reverse.dropWhile isPySpaceB).reverse

/-- Python `str.strip()` on `String`. -/
def pyStripS (s : String) : String :=
  ⟨pyStrip s.data⟩

theorem dropWhile_length_lt_of_lead {p : Char → Bool} {l : List Char}
    (h : hasLeadWs l = true) (hp : ∀ c, hasLeadWs [c] = true → p c = true) :
    (l.dropWhile p).length < l.length := by
  cases l with
  | nil => simp [hasLeadWs] at h
  | cons c cs =>
    have hc : p c = true := hp c h
    rw [List.dropWhile_cons_of_pos hc]
    exact Nat.lt_succ_of_le ((List.dropWhile_sublist (l := cs) p).length_le)

theorem pyStrip_length_le (l : List Char) : (pyStrip l).length ≤ l.length := by
  unfold pyStrip
  rw [List.length_reverse]
  calc ((l.dropWhile isPySpaceB).reverse.dropWhile isPySpaceB).length
      ≤ (l.dropWhile isPySpaceB).reverse.length := (List.dropWhile_sublist _).length_le
    _ = (l.dropWhile isPySpaceB).length := List.length_reverse _
    _ ≤ l.length := (List.dropWhile_sublist _).length_le

theorem pyStrip_length_lt (l : List Char) (h : hasEdgeWs l = true) :
    (pyStrip l).length < l.length := by
  have hp : ∀ c, hasLeadWs [c] = true → isPySpaceB c = true := by
    intro c hc; simpa [hasLeadWs] using hc
  rcases Bool.or_eq_true_iff.mp (by simpa [hasEdgeWs] using h) with hlead | htrail
  · -- leading whitespace: the first `dropWhile` already shortens the list
    unfold pyStrip
    rw [List.length_reverse]
    calc ((l.dropWhile isPySpaceB).reverse.dropWhile isPySpaceB).length
        ≤ (l.dropWhile isPySpaceB).reverse.length := (List.dropWhile_sublist _).length_le
      _ = (l.dropWhile isPySpaceB).length := List.length_reverse _
      _ < l.length := dropWhile_length_lt_of_lead hlead hp
  · -- trailing whitespace: after reversal the trailing run is dropped
    unfold pyStrip
    rw [List.length_reverse]
    have h1 : ((l.dropWhile isPySpaceB).reverse.dropWhile isPySpaceB).length
        ≤ (l.dropWhile isPySpaceB).reverse.length := (List.dropWhile_sublist _).length_le
    by_cases hd : (l.dropWhile isPySpaceB).length < l.length
    · calc ((l.dropWhile isPySpaceB).reverse.dropWhile isPySpaceB).length
          ≤ (l.dropWhile isPySpaceB).reverse.length := h1
        _ = (l.dropWhile isPySpaceB).length := List.length_reverse _
      exact hd
    · -- the leading run is empty, so `dropWhile` keeps `l` unchanged
      have hlen : (l.dropWhile isPySpaceB).length = l.length :=
        Nat.le_antisymm ((List.dropWhile_sublist _).length_le) (Nat.le_of_not_lt hd)
      have heq : l.dropWhile isPySpaceB = l :=
        (List.Sublist.eq_of_length (List.dropWhile_sublist _) hlen)
      rw [heq]
      calc (l.reverse.dropWhile isPySpaceB).length
          < l.reverse.length := dropWhile_length_lt_of_lead htrail hp
        _ = l.length := List.length_reverse _

/-- Python slice-notation index adjustment for a sequence of length `n`:
negative indices count from the end, and the result is clamped to `[0, n]`. -/
def clampIdx (n : Nat) (i : Int) : Nat :=
  (min (max (if i < 0 then i + n else i) 0) (n : Int)).toNat

/-- Python `text[s:e]` for possibly-negative `s`, `e`. -/
def pySlice (text : List Char) (s e : Int) : List Char :=
  (text.take (clampIdx text.length e)).drop (clampIdx text.length s)

/-- `startsList pat l` is true when `pat` is an initial segment of `l`. -/
def startsList : List Char → List Char → Bool
  | [], _ => true
  | _ :: _, [] => false
  | a :: as, b :: bs => a == b && startsList as bs

/-- The pattern `pat` occurs in `text` at position `p`. -/
def occursAt (text pat : List Char) (p : Nat) : Prop :=
  startsList pat (text.drop p) = true

instance (text pat : List Char) (p : Nat) : Decidable (occursAt text pat p) :=
  inferInstanceAs (Decidable (_ = true))

/-- Backward scan of `text.rfind`: the greatest position `p` with
`lo ≤ p ≤ i` at which `pat` occurs, scanning downward from `i`. -/
def pyRfindAux (text pat : List Char) (lo : Nat) : Nat → Option Nat
  | 0 => if lo ≤ 0 ∧ occursAt text pat 0 then some 0 else none
  | i + 1 =>
    if lo ≤ i + 1 ∧ occursAt text pat (i + 1) then some (i + 1)
    else pyRfindAux text pat lo i

/-- Python `text.rfind(pat, s, e)`: the rightmost position of `pat` inside
the slice `text[s:e]` (the occurrence must lie entirely inside the slice),
`none` standing for Python's `-1`. -/
def pyRfind (text pat : List Char) (s e : Int) : Option Nat :=
  if pat.length ≤ clampIdx text.length e then
    pyRfindAux text pat (clampIdx text.length s)
      (clampIdx text.length e - pat.length)
  else none

theorem pyRfindAux_eq_some {text pat : List Char} {lo i p : Nat}
    (h : pyRfindAux text pat lo i = some p) :
    lo ≤ p ∧ p ≤ i ∧ occursAt text pat p ∧
      ∀ q, lo ≤ q → q ≤ i → occursAt text pat q → q ≤ p := by
  induction i with
  | zero =>
    unfold pyRfindAux at h
    split at h
    · rename_i hc
      cases h
      exact ⟨hc.1, Nat.le_refl _, hc.2, fun q _ hq _ => hq⟩
    · cases h
  | succ i ih =>
    unfold pyRfindAux at h
    split at h
    · rename_i hc
      cases h
      exact ⟨hc.1, Nat.le_refl _, hc.2, fun q _ hq _ => hq⟩
    · rename_i hc
      obtain ⟨h1, h2, h3, h4⟩ := ih h
      refine ⟨h1, Nat.le_succ_of_le h2, h3, fun q hq1 hq2 hq3 => ?_⟩
      rcases Nat.lt_or_ge q (i + 1) with hlt | hge
      · exact h4 q hq1 (Nat.lt_succ_iff.mp hlt) hq3
      · have hq : q = i + 1 := by omega
        subst hq
        exact absurd ⟨hq1, hq3⟩ hc

theorem pyRfindAux_eq_none {text pat : List Char} {lo i : Nat}
    (h : pyRfindAux text pat lo i = none) :
    ∀ q, lo ≤ q → q ≤ i → ¬occursAt text pat q := by
  induction i with
  | zero =>
    unfold pyRfindAux at h
    split at h
    · cases h
    · rename_i hc
      intro q hq1 hq2 hq3
      have hq : q = 0 := by omega
      subst hq
      exact hc ⟨hq1, hq3⟩
  | succ i ih =>
    unfold pyRfindAux at h
    split at h
    · cases h
    · rename_i hc
      intro q hq1 hq2 hq3
      rcases Nat.lt_or_ge q (i + 1) with hlt | hge
      · exact ih h q hq1 (Nat.lt_succ_iff.mp hlt) hq3
      · have : q = i + 1 := by omega
        rw [this] at hq3
        exact hc ⟨by omega, hq3⟩

theorem pyRfindAux_isSome {text pat : List Char} {lo i q : Nat}
    (hq1 : lo ≤ q) (hq2 : q ≤ i) (hq3 : occursAt text pat q) :
    ∃ p, pyRfindAux text pat lo i = some p := by
  cases h : pyRfindAux text pat lo i with
  | some p => exact ⟨p, rfl⟩
  | none => exact absurd hq3 (pyRfindAux_eq_none h q hq1 hq2)

/-- Position `p` is a legal start of `pat` inside the window `text[s:e]`
(Python slice clamping applied to `s`, `e`; the whole occurrence must fit). -/
def inWindow (text pat : List Char) (s e : Int) (p : Nat) : Prop :=
  clampIdx text.length s ≤ p ∧ p + pat.length ≤ clampIdx text.length e

instance (text pat : List Char) (s e : Int) (p : Nat) :
    Decidable (inWindow text pat s e p) :=
  inferInstanceAs (Decidable (_ ∧ _))

theorem pyRfind_eq_some {text pat : List Char} {s e : Int} {p : Nat}
    (h : pyRfind text pat s e = some p) :
    inWindow text pat s e p ∧ occursAt text pat p ∧
      ∀ q, inWindow text pat s e q → occursAt text pat q → q ≤ p := by
  unfold pyRfind at h
  split at h
  · rename_i hle
    obtain ⟨h1, h2, h3, h4⟩ := pyRfindAux_eq_some h
    refine ⟨⟨h1, by omega⟩, h3, fun q hq hq3 => ?_⟩
    exact h4 q hq.1 (by have := hq.2; omega) hq3
  · cases h

theorem pyRfind_eq_none {text pat : List Char} {s e : Int}
    (h : pyRfind text pat s e = none) :
    ∀ q, inWindow text pat s e q → ¬occursAt text pat q := by
  unfold pyRfind at h
  split at h
  · exact fun q hq => pyRfindAux_eq_none h q hq.1 (by have := hq.2; omega)
  · rename_i hgt
    intro q hq
    exact absurd hq.2 (by omega)

theorem pyRfind_isSome {text pat : List Char} {s e : Int} {q : Nat}
    (hq : inWindow text pat s e q) (hq3 : occursAt text pat q) :
    ∃ p, pyRfind text pat s e = some p := by
  cases h : pyRfind text pat s e with
  | some p => exact ⟨p, rfl⟩
  | none => exact absurd hq3 (pyRfind_eq_none h q hq)

/-! ## Text Normalizer (`DocumentProcessor.clean_text`, `src/ingest_fixed.py`)

Each `re.sub` of the source becomes a left-to-right scanner with the
leftmost-match, greedy, continue-after-replacement semantics of `re.sub`.
The scanners take a fuel argument; `clean_text` supplies
`length + 1` fuel, which each scanner's one-char-minimum progress makes
sufficient. -/

/-- Membership of the sentence-punctuation class `[.,;:!?]`. -/
def isPunctB (c : Char) : Bool :=
  c == '.' || c == ',' || c == ';' || c == ':' || c == '!' || c == '?'

/-- Python `\w` on its ASCII fragment: letters, digits, underscore. -/
def isWordB (c : Char) : Bool :=
  c.isAlphanum || c == '_'

/-- The character class `[A-Za-zÀ-ÿ]` of the source's lookahead regex
(the `À-ÿ` range is the literal Latin-1 span U+00C0 to U+00FF). -/
def isLetterLatinB (c : Char) : Bool :=
  (('A' ≤ c && c ≤ 'Z') || ('a' ≤ c && c ≤ 'z')
    || (0xC0 ≤ c.toNat && c.toNat ≤ 0xFF))

/-- Step 1 of `clean_text`: keep `'\n'` and characters with code ≥ 32. -/
def keepPrintable (text : List Char) : List Char :=
  text.filter (fun c => c == '\n' || 32 ≤ c.toNat)

/-- Model of `re.sub(r'\n{3,}', '\n\n', text)`. -/
def subNl3 : Nat → List Char → List Char
  | 0, l => l
  | _ + 1, [] => []
  | f + 1, c :: cs =>
    if c = '\n' then
      if 2 ≤ (cs.takeWhile (fun x => x == '\n')).length then
        '\n' :: '\n' :: subNl3 f (cs.dropWhile (fun x => x == '\n'))
      else c :: subNl3 f cs
    else c :: subNl3 f cs

/-- Model of `re.sub(r' {2,}', ' ', text)`. -/
def subSp2 : Nat → List Char → List Char
  | 0, l => l
  | _ + 1, [] => []
  | f + 1, c :: cs =>
    if c = ' ' then
      if 1 ≤ (cs.takeWhile (fun x => x == ' ')).length then
        ' ' :: subSp2 f (cs.dropWhile (fun x => x == ' '))
      else c :: subSp2 f cs
    else c :: subSp2 f cs

/-- Split at `'\n'` (Python `text.split('\n')`). -/
def splitNl : List Char → List (List Char)
  | [] => [[]]
  | c :: cs =>
    if c = '\n' then [] :: splitNl cs
    else
      match splitNl cs with
      | [] => [[c]]
      | l :: ls => (c :: l) :: ls

/-- Join with `'\n'` (Python `'\n'.join(lines)`). -/
def joinNl : List (List Char) → List Char
  | [] => []
  | [l] => l
  | l :: ls => l ++ '\n' :: joinNl ls

/-- Largest index of a `'\n'` in the list, if any. -/
def lastNlIdx : List Char → Option Nat
  | [] => none
  | c :: cs =>
    match lastNlIdx cs with
    | some j => some (j + 1)
    | none => if c = '\n' then some 0 else none

/-- Model of `re.sub(r'\n\s*\n', '\n\n', text)`: a match starts at a `'\n'`
whose following whitespace run contains another `'\n'`; the greedy `\s*`
makes the match run to the last `'\n'` of that run. -/
def subNlWsNl : Nat → List Char → List Char
  | 0, l => l
  | _ + 1, [] => []
  | f + 1, c :: cs =>
    if c = '\n' then
      match lastNlIdx (cs.takeWhile isPySpaceB) with
      | some j => '\n' :: '\n' :: subNlWsNl f (cs.drop (j + 1))
      | none => c :: subNlWsNl f cs
    else c :: subNlWsNl f cs

/-- Model of `re.sub(r'(\w+)-\n(\w+)', r'\1\2', text)`: scanning left to
right, a maximal word run followed by `-`, `\n` and a word character is
rejoined; scanning resumes after the second word run. -/
def subHyphen : Nat → List Char → List Char
  | 0, l => l
  | _ + 1, [] => []
  | f + 1, c :: cs =>
    if isWordB c then
      let run := (c :: cs).takeWhile isWordB
      match (c :: cs).dropWhile isWordB with
      | '-' :: '\n' :: d :: rest =>
        if isWordB d then
          let run2 := (d :: rest).takeWhile isWordB
          run ++ run2 ++ subHyphen f ((d :: rest).dropWhile isWordB)
        else run ++ subHyphen f ('-' :: '\n' :: d :: rest)
      | rest => run ++ subHyphen f rest
    else c :: subHyphen f cs

/-- Model of `re.sub(r'\s+([.,;:!?])', r'\1', text)`: a whitespace run
immediately followed by sentence punctuation is deleted. -/
def subWsPunct : Nat → List Char → List Char
  | 0, l => l
  | _ + 1, [] => []
  | f + 1, c :: cs =>
    if isPySpaceB c then
      match (c :: cs).dropWhile isPySpaceB with
      | p :: rest =>
        if isPunctB p then p :: subWsPunct f rest
        else (c :: cs).takeWhile isPySpaceB ++ subWsPunct f (p :: rest)
      | [] => (c :: cs).takeWhile isPySpaceB
    else c :: subWsPunct f cs

/-- Model of `re.sub(r'([.,;:!?])(?=[A-Za-zÀ-ÿ])', r'\1 ', text)`: insert a
space after punctuation directly followed by a letter (the lookahead is not
consumed, so scanning resumes at the letter). -/
def subPunctLetter : List Char → List Char
  | [] => []
  | [c] => [c]
  | c :: d :: cs =>
    if isPunctB c && isLetterLatinB d then c :: ' ' :: subPunctLetter (d :: cs)
    else c :: subPunctLetter (d :: cs)

/-- `DocumentProcessor.clean_text` of `src/ingest_fixed.py` (the same body
appears in `create_files.py`): control-character removal, newline and space
collapsing, per-line stripping, blank-line collapsing, hyphenated
line-break rejoining, punctuation spacing, final strip. -/
def clean_text (s : String) : String :=
  let t0 := keepPrintable s.data
  let t1 := subNl3 (t0.length + 1) t0
  let t2 := subSp2 (t1.length + 1) t1
  let t3 := joinNl ((splitNl t2).map pyStrip)
  let t4 := subNlWsNl (t3.length + 1) t3
  let t5 := subHyphen (t4.length + 1) t4
  let t6 := subWsPunct (t5.length + 1) t5
  let t7 := subPunctLetter t6
  ⟨pyStrip t7⟩

/-! ## Chunker (`DocumentProcessor.chunk_text`, `src/ingest_fixed.py`)

The `while start < len(text)` loop becomes a fuel-indexed recursion; the
loop body is translated statement by statement, with `start` kept as an
`Int` because `start = end - overlap` can go negative in Python, where it
is then reinterpreted by slice notation and by `rfind`. -/

/-- The ordered boundary-delimiter preference list
`['. ', '.\n', '! ', '!\n', '? ', '?\n', '\n\n']`. -/
def delims : List (List Char) :=
  [['.', ' '], ['.', '\n'], ['!', ' '], ['!', '\n'],
    ['?', ' '], ['?', '\n'], ['\n', '\n']]

/-- The `for delimiter in [...]` loop of `chunk_text`: try each delimiter in
preference order; on the first whose rightmost occurrence in `text[s:e]`
lies strictly after `mid`, return `position + len(delimiter) - 1`. -/
def findBreakGo (text : List Char) (s e mid : Int) : List (List Char) → Option Nat
  | [] => none
  | d :: ds =>
    match pyRfind text d s e with
    | some p => if mid < (p : Int) then some (p + d.length - 1) else findBreakGo text s e mid ds
    | none => findBreakGo text s e mid ds

/-- Boundary search of `chunk_text` (`src/ingest_fixed.py`, lines 82-87):
the midpoint threshold is `start + chunk_size // 2`. -/
def findBreak (text : List Char) (s e : Int) (cs : Nat) : Option Nat :=
  findBreakGo text s e (s + (cs / 2 : Nat)) delims

/-- One iteration step plus recursion of the `while` loop of `chunk_text`,
with `fuel` bounding the number of iterations (`none` = fuel exhausted,
i.e. the source loop has not returned within that many iterations). -/
def chunkTextLoop (cs ov : Nat) (text : List Char) :
    Nat → Int → List (List Char) → Option (List (List Char))
  | 0, _, _ => none
  | fuel + 1, start, acc =>
    if start < (text.length : Int) then
      let e0 : Int := min (start + cs) text.length
      let e : Int :=
        if e0 < (text.length : Int) then
          match findBreak text start e0 cs with
          | some e' => (e' : Int)
          | none => e0
        else e0
      let chunk := pyStrip (pySlice text start e)
      chunkTextLoop cs ov text fuel
        (if e < (text.length : Int) then e - ov else e)
        (if chunk.isEmpty then acc else acc ++ [chunk])
    else some acc

/-- `DocumentProcessor.chunk_text` of `src/ingest_fixed.py` (identical body
in `create_files.py`), for explicitly supplied positive `chunk_size` and
`overlap` (the `chunk_size or config.CHUNK_SIZE` defaulting for absent or
zero arguments is resolved by the caller and not modelled). -/
def chunk_text (cs ov fuel : Nat) (text : List Char) : Option (List (List Char)) :=
  if text.length ≤ cs then some [text]
  else chunkTextLoop cs ov text fuel 0 []

/-! ## Chunk records and the embedding pipeline
(`TextChunker.process_text_file`, `src/ingest/chunk.py`;
`EmbeddingGenerator`, `src/ingest/embed.py`) -/

/-- Persisted chunk record (`chunks.json` entry): the fields attached in
`process_text_file`. -/
structure ChunkRec where
  source_file : String
  chunk_id : Nat
  text : String
  char_count : Nat
  token_count : Nat
deriving DecidableEq, Repr

/-- Metadata attachment loop of `TextChunker.process_text_file`
(`src/ingest/chunk.py`, lines 163-172): for the `i`-th raw chunk the record
stores the stripped text but the length and token count of the unstripped
chunk. The tokenizer is external and passed as `tok`. -/
def mkChunkRecords (name : String) (tok : String → Nat) (raws : List String) :
    List ChunkRec :=
  raws.enum.map fun pr =>
    { source_file := name
      chunk_id := pr.1 + 1
      text := pyStripS pr.2
      char_count := pr.2.length
      token_count := tok pr.2 }

/-- Validation filter of `EmbeddingGenerator._load_chunks`
(`src/ingest/embed.py`, line 160): drop records whose text is empty after
stripping. (The preceding field-defaulting loop only affects dynamically
missing JSON fields, which the typed record rules out.) -/
def validChunks (chunks : List ChunkRec) : List ChunkRec :=
  chunks.filter fun c => !(pyStripS c.text).isEmpty

/-- `EmbeddingGenerator.process_chunks`: load and validate chunks, embed
every chunk text, add all vectors to a fresh index, and persist index and
chunk list together. The external encoder plus L2 normalization is the
abstract `embedNorm`; the FAISS `IndexFlatIP` stores vectors in insertion
order, so the built index is the vector list itself and `ntotal` its
length. Returns `none` when no valid chunk remains (the source returns
`0, 0` without saving artifacts). -/
def processChunks (embedNorm : String → List ℚ) (chunks : List ChunkRec) :
    Option (List ChunkRec × List (List ℚ)) :=
  if (validChunks chunks).isEmpty then none
  else some (validChunks chunks,
    ((validChunks chunks).map fun c => c.text).map embedNorm)

/-! ## Retrieval engine (`QueryEngine`, `src/query/query.py`) -/

/-- The loaded state of `QueryEngine`: parallel chunk list and FAISS index
(list of vectors), plus the default `k`. -/
structure EngineState where
  chunks : List ChunkRec
  vecs : List (List ℚ)
  k : Nat
deriving DecidableEq

/-- One retrieved result as assembled in `_search_similar_chunks`. -/
structure SearchResult where
  chunk_id : Nat
  source_file : String
  text : String
  score : ℚ
  index : Nat
deriving DecidableEq, Repr

/-- Inner product of two vectors (scores are modelled exactly over `ℚ`). -/
def dotQ : List ℚ → List ℚ → ℚ
  | a :: as, b :: bs => a * b + dotQ as bs
  | _, _ => 0

/-- Result order of the index search: higher score first, ties by lower
position. -/
def pairLE (a b : Nat × ℚ) : Prop :=
  b.2 < a.2 ∨ (a.2 = b.2 ∧ a.1 ≤ b.1)

instance : DecidableRel pairLE := fun a b =>
  decidable_of_iff (b.2 < a.2 ∨ (a.2 = b.2 ∧ a.1 ≤ b.1)) Iff.rfl

/-- Insertion step of the sort realizing the search order. -/
def insertPair (x : Nat × ℚ) : List (Nat × ℚ) → List (Nat × ℚ)
  | [] => [x]
  | y :: ys => if pairLE x y then x :: y :: ys else y :: insertPair x ys

/-- Insertion sort of scored positions by `pairLE`. -/
def sortPairs : List (Nat × ℚ) → List (Nat × ℚ)
  | [] => []
  | x :: xs => insertPair x (sortPairs xs)

/-- Modelled from the spec: the FAISS `IndexFlatIP.search` call itself is
external library code, specified in §4.4 of the spec as exact inner-product
search over the stored vectors returning the top `k` scores in descending
order with ties broken by ascending position. -/
def vecIndexSearch (vecs : List (List ℚ)) (q : List ℚ) (k : Nat) :
    List (Nat × ℚ) :=
  (sortPairs (vecs.enum.map fun pr => (pr.1, dotQ q pr.2))).take k

/-- `QueryEngine._search_similar_chunks` (`src/query/query.py`, lines
193-227): clamp `k` to the number of chunks, search the index, skip
positions outside `[0, n_chunks)` (positions are naturals here, so only
the upper check remains), and assemble result records. `resFn` is the
record-assembly step for one returned position. -/
def resFn (e : EngineState) (pr : Nat × ℚ) : Option SearchResult :=
  if h : pr.1 < e.chunks.length then
    some { chunk_id := (e.chunks.get ⟨pr.1, h⟩).chunk_id
           source_file := (e.chunks.get ⟨pr.1, h⟩).source_file
           text := (e.chunks.get ⟨pr.1, h⟩).text
           score := pr.2
           index := pr.1 }
  else none

def searchSimilarChunks (e : EngineState) (q : List ℚ) (k : Nat) :
    List SearchResult :=
  (vecIndexSearch e.vecs q (min k e.chunks.length)).filterMap (resFn e)

/-- `QueryEngine._build_context`: headers and texts joined by newlines with
`---` separators between chunks; the `:.3f` float formatting of the score
is abstracted by the exact decimal-free rendering of `ℚ`. -/
def buildContext (results : List SearchResult) : String :=
  String.intercalate "\n"
    (results.map fun r =>
      "[Documento: " ++ r.source_file ++ " | Chunk: " ++ toString r.chunk_id
        ++ " | Relevancia: " ++ toString r.score ++ "]\n" ++ r.text)

/-- Error raised by `QueryEngine.query` for an empty question (the source
raises `ValueError("Pergunta não pode estar vazia")`; the spec's taxonomy
names this case `InvalidQueryError`). -/
inductive QueryError where
  | invalidQuery
deriving DecidableEq

/-- Output of a successful `QueryEngine.query` call (the optional
LLM-generated `answer` belongs to the external answer-generation
collaborator and is outside the modelled core). -/
structure QueryOutput where
  question : String
  results : List SearchResult
  context : String
  k : Nat
deriving DecidableEq

/-- `QueryEngine.query` (`src/query/query.py`, lines 118-143): reject an
empty or whitespace-only question before anything else; otherwise resolve
`k = k or self.k` (Python falsiness: both `None` and `0` fall back to
`self.k`), embed the question and search. The second component of the
result collects the texts sent to the embedding model, so `[]` there means
no embedding call was made; the engine state is read-only throughout. -/
def queryFn (e : EngineState) (question : String) (kArg : Option Nat)
    (embed : String → List ℚ) :
    Except QueryError QueryOutput × List String :=
  if question.data = [] ∨ pyStripS question = "" then
    (.error .invalidQuery, [])
  else
    let k := match kArg with
      | none => e.k
      | some 0 => e.k
      | some n => n
    let results := searchSimilarChunks e (embed question) k
    (.ok { question := question, results := results,
           context := buildContext results, k := k }, [question])

/-- Contents of `index_info.json` as read by `_load_index_info`. -/
structure IndexInfo where
  model_name : String
  embedding_dim : Nat
  n_vectors : Nat
deriving DecidableEq

/-- Load failure of `QueryEngine.__init__`: a missing artifact file. -/
inductive LoadError where
  | fileNotFound (name : String)
deriving DecidableEq

/-- `QueryEngine.__init__` with its three loaders `_load_index_info`,
`_load_faiss_index`, `_load_chunks` (`src/query/query.py`, lines 43-116):
each loader raises `FileNotFoundError` when its file is absent; when the
FAISS index's vector count differs from `index_info.json`'s `n_vectors`
only a warning is logged (collected here as the second component); the
chunk list is loaded without any count comparison and the engine is ready. -/
def initQueryEngine (k : Nat) (infoFile : Option IndexInfo)
    (indexFile : Option (List (List ℚ))) (chunksFile : Option (List ChunkRec)) :
    Except LoadError (EngineState × List String) :=
  match infoFile with
  | none => .error (.fileNotFound "index_info.json")
  | some info =>
    match indexFile with
    | none => .error (.fileNotFound "ufcspa.index")
    | some vecs =>
      match chunksFile with
      | none => .error (.fileNotFound "chunks.json")
      | some chunks =>
        .ok ({ chunks := chunks, vecs := vecs, k := k },
          if vecs.length = info.n_vectors then []
          else ["index count differs from expected"])

theorem pairLE_total (a b : Nat × ℚ) : pairLE a b ∨ pairLE b a := by
  rcases lt_trichotomy a.2 b.2 with h | h | h
  · exact Or.inr (Or.inl h)
  · rcases Nat.le_total a.1 b.1 with h1 | h1
    · exact Or.inl (Or.inr ⟨h, h1⟩)
    · exact Or.inr (Or.inr ⟨h.symm, h1⟩)
  · exact Or.inl (Or.inl h)

theorem pairLE_trans {a b c : Nat × ℚ} (h1 : pairLE a b) (h2 : pairLE b c) :
    pairLE a c := by
  rcases h1 with h1 | ⟨h1, h1'⟩ <;> rcases h2 with h2 | ⟨h2, h2'⟩
  · exact Or.inl (h2.trans h1)
  · exact Or.inl (h2 ▸ h1)
  · exact Or.inl (by rw [h1]; exact h2)
  · exact Or.inr ⟨h1.trans h2, h1'.trans h2'⟩

theorem mem_insertPair {z x : Nat × ℚ} {l : List (Nat × ℚ)} :
    z ∈ insertPair x l ↔ z = x ∨ z ∈ l := by
  induction l with
  | nil => simp [insertPair]
  | cons y ys ih =>
    unfold insertPair
    split
    · simp
    · simp only [List.mem_cons, ih]
      tauto

theorem perm_insertPair (x : Nat × ℚ) (l : List (Nat × ℚ)) :
    (insertPair x l).Perm (x :: l) := by
  induction l with
  | nil => simp [insertPair]
  | cons y ys ih =>
    unfold insertPair
    split
    · exact List.Perm.refl _
    · exact (List.Perm.cons y ih).trans (List.Perm.swap x y ys)

theorem perm_sortPairs (l : List (Nat × ℚ)) : (sortPairs l).Perm l := by
  induction l with
  | nil => exact List.Perm.refl _
  | cons x xs ih =>
    exact (perm_insertPair x (sortPairs xs)).trans (List.Perm.cons x ih)

theorem pairwise_insertPair {x : Nat × ℚ} {l : List (Nat × ℚ)}
    (h : l.Pairwise pairLE) : (insertPair x l).Pairwise pairLE := by
  induction l with
  | nil => simp [insertPair]
  | cons y ys ih =>
    unfold insertPair
    split
    · rename_i hxy
      refine List.Pairwise.cons ?_ h
      intro z hz
      rcases List.mem_cons.mp hz with rfl | hz
      · exact hxy
      · exact pairLE_trans hxy (List.rel_of_pairwise_cons h hz)
    · rename_i hxy
      have hyx : pairLE y x := (pairLE_total x y).resolve_left hxy
      refine List.Pairwise.cons ?_ (ih (List.Pairwise.of_cons h))
      intro z hz
      rcases mem_insertPair.mp hz with rfl | hz
      · exact hyx
      · exact List.rel_of_pairwise_cons h hz

theorem pairwise_sortPairs (l : List (Nat × ℚ)) :
    (sortPairs l).Pairwise pairLE := by
  induction l with
  | nil => exact List.Pairwise.nil
  | cons x xs ih => exact pairwise_insertPair ih

theorem fst_lt_of_mem_enumFrom {α : Type} {l : List α} {n : Nat}
    {pr : Nat × α} (h : pr ∈ l.enumFrom n) : pr.1 < n + l.length := by
  induction l generalizing n with
  | nil => cases h
  | cons a as ih =>
    rcases List.mem_cons.mp h with rfl | h
    · simp
    · have := ih (n := n + 1) h
      simpa [Nat.add_comm, Nat.add_left_comm] using Nat.lt_of_lt_of_le this (by omega)

theorem fst_lt_of_mem_enum {α : Type} {l : List α} {pr : Nat × α}
    (h : pr ∈ l.enum) : pr.1 < l.length := by
  simpa using fst_lt_of_mem_enumFrom (n := 0) h

/-! ## Claims -/

/-- C1. The claim asks that `overlap >= chunk_size` fail fast with a
configuration error before any chunk is produced. Neither
`DocumentProcessor.chunk_text` nor `TextChunker.__init__` contains any
such guard: with `chunk_size = 2`, `overlap = 2` and input `"abcdef"` the
loop emits the chunk `"ab"` on every iteration and re-enters the very same
state (`start` stays `0`), so it never raises and never terminates — the
first conjunct is the self-reproducing loop step, the second states that no
amount of fuel makes the loop return. -/
theorem chunkText_overlap_ge_size_no_fail_fast :
    (∀ fuel acc, chunkTextLoop 2 2 "abcdef".data (fuel + 1) 0 acc
        = chunkTextLoop 2 2 "abcdef".data fuel 0 (acc ++ [['a', 'b']]))
      ∧ ∀ fuel, chunk_text 2 2 fuel "abcdef".data = none := by
  constructor
  · intro fuel acc
    rfl
  · have key : ∀ fuel acc, chunkTextLoop 2 2 "abcdef".data fuel 0 acc = none := by
      intro fuel
      induction fuel with
      | zero => intro acc; rfl
      | succ f ih =>
        intro acc
        rw [show chunkTextLoop 2 2 "abcdef".data (f + 1) 0 acc
            = chunkTextLoop 2 2 "abcdef".data f 0 (acc ++ [['a', 'b']]) from rfl]
        exact ih _
    intro fuel
    unfold chunk_text
    rw [if_neg (by decide)]
    exact key fuel []

/-- C2. The claim asserts termination of the chunking loop for every
`0 < overlap < chunk_size`. For `chunk_size = 10`, `overlap = 9` on
`"abcdef. xyzABCDEFGHIJ"` the boundary search sets `end = 7`, so
`start = end - overlap = -2` goes negative; Python's slice/`rfind`
semantics then make the loop cycle through the start states
`0 → -2 → -1 → 0 → …` forever (emitting `"abcdef."` on every third
iteration), so the loop never returns for any amount of fuel. -/
theorem chunkText_nonterminating_small_overlap :
    ∀ fuel, chunk_text 10 9 fuel "abcdef. xyzABCDEFGHIJ".data = none := by
  have key : ∀ fuel acc,
      chunkTextLoop 10 9 "abcdef. xyzABCDEFGHIJ".data fuel 0 acc = none
        ∧ chunkTextLoop 10 9 "abcdef. xyzABCDEFGHIJ".data fuel (-2) acc = none
        ∧ chunkTextLoop 10 9 "abcdef. xyzABCDEFGHIJ".data fuel (-1) acc = none := by
    intro fuel
    induction fuel with
    | zero => intro acc; exact ⟨rfl, rfl, rfl⟩
    | succ f ih =>
      intro acc
      refine ⟨?_, ?_, ?_⟩
      · rw [show chunkTextLoop 10 9 "abcdef. xyzABCDEFGHIJ".data (f + 1) 0 acc
            = chunkTextLoop 10 9 "abcdef. xyzABCDEFGHIJ".data f (-2)
                (acc ++ ["abcdef.".data]) from rfl]
        exact (ih _).2.1
      · rw [show chunkTextLoop 10 9 "abcdef. xyzABCDEFGHIJ".data (f + 1) (-2) acc
            = chunkTextLoop 10 9 "abcdef. xyzABCDEFGHIJ".data f (-1) acc from rfl]
        exact (ih _).2.2
      · rw [show chunkTextLoop 10 9 "abcdef. xyzABCDEFGHIJ".data (f + 1) (-1) acc
            = chunkTextLoop 10 9 "abcdef. xyzABCDEFGHIJ".data f 0 acc from rfl]
        exact (ih _).1
  intro fuel
  unfold chunk_text
  rw [if_neg (by decide)]
  exact (key fuel []).1

/-- C3. The normalizer is not idempotent: the hyphen-rejoin substitution
`re.sub(r'(\w+)-\n(\w+)', r'\1\2', …)` consumes its second word group, so
a chain of hyphenated line breaks is only reduced by one per pass;
`clean_text "a-\nb-\nc"` gives `"ab-\nc"` while a second application gives
`"abc"`. -/
theorem clean_text_not_idempotent :
    clean_text "a-\nb-\nc" = "ab-\nc"
      ∧ clean_text (clean_text "a-\nb-\nc") = "abc"
      ∧ clean_text (clean_text "a-\nb-\nc") ≠ clean_text "a-\nb-\nc" := by
  refine ⟨rfl, rfl, ?_⟩
  decide

/-- C8 (amended). Any text no longer than `chunk_size` — including the
empty string — is returned as the single-element sequence `[text]` by the
first branch of `chunk_text`. -/
theorem chunkText_small_input_single (cs ov fuel : Nat) (text : List Char)
    (h : text.length ≤ cs) : chunk_text cs ov fuel text = some [text] := by
  unfold chunk_text
  exact if_pos h

/-- C8 (witness). The amended claim at `chunk_size = 5`, `overlap = 2` on
`"ab"`. -/
theorem chunkText_small_input_single_witness :
    "ab".data.length ≤ 5 ∧ chunk_text 5 2 9 "ab".data = some ["ab".data] :=
  ⟨by decide, chunkText_small_input_single 5 2 9 "ab".data (by decide)⟩

/-- C8 (counterexample). Chunking the empty string yields `[""]`, a
one-element sequence, not the empty sequence the claim asserts. -/
theorem chunkText_empty_input_not_empty_seq :
    chunk_text 5 2 9 ([] : List Char) = some [[]]
      ∧ chunk_text 5 2 9 ([] : List Char) ≠ some [] := by
  exact ⟨rfl, by decide⟩

/-- C4. A whitespace-only (or empty) question is rejected by the guard at
the top of `QueryEngine.query` before anything else happens: the result is
the invalid-query error, the list of texts sent to the embedding model is
empty, and the outcome does not depend on the engine state, the requested
`k`, or the embedding function at all (the engine is read-only, so its
state is unchanged). -/
theorem query_rejects_blank_question (question : String)
    (h : pyStripS question = "") :
    ∀ (e : EngineState) (kArg : Option Nat) (embed : String → List ℚ),
      queryFn e question kArg embed = (.error .invalidQuery, []) := by
  intro e kArg embed
  unfold queryFn
  exact if_pos (Or.inr h)

/-- C4 (witness). The guard at the concrete question `"   "`. -/
theorem query_rejects_blank_question_witness :
    pyStripS "   " = ""
      ∧ queryFn { chunks := [], vecs := [], k := 5 } "   " (some 3)
          (fun _ => [1]) = (.error .invalidQuery, []) :=
  ⟨by decide, query_rejects_blank_question "   " (by decide)
    { chunks := [], vecs := [], k := 5 } (some 3) (fun _ => [1])⟩

/-- First sample chunk record for the load-time scenarios. -/
def chunkRecA : ChunkRec :=
  { source_file := "a.txt", chunk_id := 1, text := "x",
    char_count := 1, token_count := 1 }

/-- Second sample chunk record for the load-time scenarios. -/
def chunkRecB : ChunkRec :=
  { source_file := "a.txt", chunk_id := 2, text := "y",
    char_count := 1, token_count := 1 }

/-- A three-vector sample index. -/
def sampleVecs3 : List (List ℚ) := [[1], [2], [3]]

/-- Sample `index_info.json` contents announcing three vectors. -/
def sampleInfo3 : IndexInfo :=
  { model_name := "m", embedding_dim := 1, n_vectors := 3 }

/-- C5 (amended). When the three artifact files are present, loading always
succeeds: the engine enters the queryable state holding exactly the loaded
chunk list and index even when their counts differ (the hypothesis records
the mismatch the original claim is about); the only count check performed
compares the index against `index_info.json`'s `n_vectors`, and a failure
of that check is merely logged as a warning. -/
theorem initQueryEngine_ignores_count_mismatch (k : Nat) (info : IndexInfo)
    (vecs : List (List ℚ)) (chunks : List ChunkRec)
    (_mismatch : chunks.length ≠ vecs.length) :
    ∃ warns, initQueryEngine k (some info) (some vecs) (some chunks)
        = .ok ({ chunks := chunks, vecs := vecs, k := k }, warns) := by
  unfold initQueryEngine
  exact ⟨_, rfl⟩

/-- C5 (witness). The amended claim at a concrete mismatched snapshot:
two chunk records against a three-vector index. -/
theorem initQueryEngine_ignores_count_mismatch_witness :
    ([chunkRecA, chunkRecB].length ≠ sampleVecs3.length)
      ∧ ∃ warns, initQueryEngine 5 (some sampleInfo3) (some sampleVecs3)
          (some [chunkRecA, chunkRecB])
          = .ok ({ chunks := [chunkRecA, chunkRecB], vecs := sampleVecs3,
                   k := 5 }, warns) :=
  ⟨by decide, initQueryEngine_ignores_count_mismatch 5 sampleInfo3 sampleVecs3
    [chunkRecA, chunkRecB] (by decide)⟩

/-- C5 (counterexample). At a concrete load with 2 chunk records but a
3-vector index (matching `n_vectors`), `QueryEngine.__init__` succeeds with
no warning at all — the claim's `CorpusIntegrityError` blocking `Ready`
does not exist in the code, which never compares the chunk count to the
index count. -/
theorem initQueryEngine_mismatch_becomes_ready :
    initQueryEngine 5 (some sampleInfo3) (some sampleVecs3)
        (some [chunkRecA, chunkRecB])
      = .ok ({ chunks := [chunkRecA, chunkRecB], vecs := sampleVecs3,
               k := 5 }, [])
      ∧ [chunkRecA, chunkRecB].length ≠ sampleVecs3.length := by
  exact ⟨rfl, by decide⟩

/-- C10. Every record produced by the metadata loop of
`process_text_file` stores the stripped chunk as `text` but the length of
the unstripped chunk as `char_count`, so `char_count ≥ len(text)` always,
strictly whenever the raw chunk carried leading or trailing whitespace. -/
theorem chunkRecord_char_count_ge_text (name : String) (tok : String → Nat)
    (raws : List String) (r : ChunkRec)
    (h : r ∈ mkChunkRecords name tok raws) :
    ∃ s ∈ raws, r.text = pyStripS s ∧ r.char_count = s.length
      ∧ r.text.length ≤ r.char_count
      ∧ (hasEdgeWs s.data = true → r.text.length < r.char_count) := by
  unfold mkChunkRecords at h
  obtain ⟨pr, hpr, rfl⟩ := List.mem_map.mp h
  refine ⟨pr.2, ?_, rfl, rfl, ?_, ?_⟩
  · have hsnd : raws.enum.map Prod.snd = raws := List.enum_map_snd raws
    exact hsnd ▸ List.mem_map_of_mem Prod.snd hpr
  · exact pyStrip_length_le pr.2.data
  · intro hws
    exact pyStrip_length_lt pr.2.data hws

/-- The record `process_text_file` builds from the raw chunk `" ab "`. -/
def recEdgeWs : ChunkRec :=
  { source_file := "f.txt", chunk_id := 1, text := "ab",
    char_count := 4, token_count := 0 }

/-- C10 (witness). The record built from the raw chunk `" ab "` (stored
text `"ab"`, `char_count` 4). -/
theorem chunkRecord_char_count_ge_text_witness :
    recEdgeWs ∈ mkChunkRecords "f.txt" (fun _ => 0) [" ab "]
      ∧ ∃ s ∈ [" ab "], recEdgeWs.text = pyStripS s
          ∧ recEdgeWs.char_count = s.length
          ∧ recEdgeWs.text.length ≤ recEdgeWs.char_count
          ∧ (hasEdgeWs s.data = true
              → recEdgeWs.text.length < recEdgeWs.char_count) :=
  ⟨by decide, chunkRecord_char_count_ge_text "f.txt" (fun _ => 0) [" ab "]
    recEdgeWs (by decide)⟩

/-- C9. Whatever `process_chunks` persists is consistent: the saved chunk
list is exactly the validated list (whitespace-only texts filtered out),
the index holds one vector per saved chunk (the source's
`assert index.ntotal == n_vectors`), and every saved record's text is
non-empty after stripping. -/
theorem processChunks_index_parallel_chunks (embedNorm : String → List ℚ)
    (chunks saved : List ChunkRec) (vecs : List (List ℚ))
    (h : processChunks embedNorm chunks = some (saved, vecs)) :
    saved = validChunks chunks ∧ vecs.length = saved.length
      ∧ ∀ c ∈ saved, pyStripS c.text ≠ "" := by
  unfold processChunks at h
  split at h
  · cases h
  · injection h with h2
    injection h2 with hA hB
    subst hA
    subst hB
    refine ⟨rfl, by simp, ?_⟩
    intro c hc heq
    unfold validChunks at hc
    have hf := (List.mem_filter.mp hc).2
    rw [heq] at hf
    exact absurd hf (by decide)

/-- The chunk record with whitespace-only text used in the C9 witness. -/
def recBlankText : ChunkRec :=
  { source_file := "b.txt", chunk_id := 2, text := "  ",
    char_count := 2, token_count := 0 }

/-- C9 (witness). Processing a good record together with a
whitespace-only one saves only the good record and one vector. -/
theorem processChunks_index_parallel_chunks_witness :
    processChunks (fun _ => [1]) [chunkRecA, recBlankText]
        = some ([chunkRecA], [[1]])
      ∧ ([chunkRecA] = validChunks [chunkRecA, recBlankText]
          ∧ ([[1]] : List (List ℚ)).length = [chunkRecA].length
          ∧ ∀ c ∈ [chunkRecA], pyStripS c.text ≠ "") :=
  ⟨by decide, processChunks_index_parallel_chunks (fun _ => [1])
    [chunkRecA, recBlankText] [chunkRecA] [[1]] (by decide)⟩

theorem vecIndexSearch_length (vecs : List (List ℚ)) (q : List ℚ) (k : Nat) :
    (vecIndexSearch vecs q k).length = min k vecs.length := by
  unfold vecIndexSearch
  rw [List.length_take,
    (perm_sortPairs (vecs.enum.map fun pr => (pr.1, dotQ q pr.2))).length_eq]
  simp

theorem vecIndexSearch_mem_lt (vecs : List (List ℚ)) (q : List ℚ) (k : Nat) :
    ∀ p ∈ vecIndexSearch vecs q k, p.1 < vecs.length := by
  intro p hp
  have hp1 : p ∈ sortPairs (vecs.enum.map fun pr => (pr.1, dotQ q pr.2)) :=
    List.take_subset _ _ hp
  have hp2 : p ∈ vecs.enum.map fun pr => (pr.1, dotQ q pr.2) :=
    (perm_sortPairs _).mem_iff.mp hp1
  obtain ⟨pr, hpr, rfl⟩ := List.mem_map.mp hp2
  exact fst_lt_of_mem_enum hpr

theorem vecIndexSearch_pairwise (vecs : List (List ℚ)) (q : List ℚ) (k : Nat) :
    (vecIndexSearch vecs q k).Pairwise fun a b => pairLE a b ∧ a.1 ≠ b.1 := by
  unfold vecIndexSearch
  have hsorted : (sortPairs (vecs.enum.map fun pr => (pr.1, dotQ q pr.2))).Pairwise pairLE :=
    pairwise_sortPairs _
  have hfst : ((vecs.enum.map fun pr => (pr.1, dotQ q pr.2)).map Prod.fst)
      = List.range vecs.length := by
    rw [List.map_map]
    exact List.enum_map_fst vecs
  have hnodup : ((sortPairs (vecs.enum.map fun pr => (pr.1, dotQ q pr.2))).map
      Prod.fst).Nodup := by
    have hperm := (perm_sortPairs (vecs.enum.map fun pr => (pr.1, dotQ q pr.2))).map Prod.fst
    rw [hperm.nodup_iff, hfst]
    exact List.nodup_range _
  have h1 := hsorted.sublist (List.take_sublist k _)
  have h2 : ((sortPairs (vecs.enum.map fun pr => (pr.1, dotQ q pr.2))).take k).Pairwise
      fun a b => a.1 ≠ b.1 := by
    have hsub : (((sortPairs (vecs.enum.map fun pr => (pr.1, dotQ q pr.2))).take k).map
        Prod.fst).Nodup :=
      hnodup.sublist ((List.take_sublist k _).map Prod.fst)
    exact List.pairwise_map.mp hsub
  exact h1.and h2

/-- The result ordering asserted by the search contract: strictly higher
score first, equal scores ordered by strictly ascending index position. -/
def resRel (a b : SearchResult) : Prop :=
  b.score < a.score ∨ (a.score = b.score ∧ a.index < b.index)

theorem resFn_eq_some {e : EngineState} {pr : Nat × ℚ}
    (h : pr.1 < e.chunks.length) :
    ∃ r, resFn e pr = some r ∧ r.index = pr.1 ∧ r.score = pr.2 :=
  ⟨_, dif_pos h, rfl, rfl⟩

theorem filterMap_resFn_length {e : EngineState} :
    ∀ {l : List (Nat × ℚ)}, (∀ p ∈ l, p.1 < e.chunks.length) →
      (l.filterMap (resFn e)).length = l.length := by
  intro l
  induction l with
  | nil => intro _; rfl
  | cons p ps ih =>
    intro hall
    obtain ⟨r, hr, _, _⟩ := resFn_eq_some (hall p (List.mem_cons_self p ps))
    rw [List.filterMap_cons, hr, List.length_cons,
      ih fun x hx => hall x (List.mem_cons_of_mem p hx)]
    rfl

theorem filterMap_resFn_pairwise {e : EngineState} :
    ∀ {l : List (Nat × ℚ)}, (∀ p ∈ l, p.1 < e.chunks.length) →
      (l.Pairwise fun a b => pairLE a b ∧ a.1 ≠ b.1) →
      (l.filterMap (resFn e)).Pairwise resRel := by
  intro l
  induction l with
  | nil => intro _ _; exact List.Pairwise.nil
  | cons p ps ih =>
    intro hall hpw
    obtain ⟨hhead, htail⟩ := List.pairwise_cons.mp hpw
    obtain ⟨r, hr, hidx, hsc⟩ := resFn_eq_some (hall p (List.mem_cons_self p ps))
    rw [List.filterMap_cons, hr]
    refine List.Pairwise.cons ?_ (ih (fun x hx => hall x (List.mem_cons_of_mem p hx)) htail)
    intro r' hr'
    obtain ⟨q, hq, hq'⟩ := List.mem_filterMap.mp hr'
    obtain ⟨r'', hr'', hidx', hsc'⟩ :=
      resFn_eq_some (hall q (List.mem_cons_of_mem p hq))
    rw [hr''] at hq'
    cases hq'
    obtain ⟨hle, hne⟩ := hhead q hq
    unfold resRel
    rw [hidx, hsc, hidx', hsc']
    rcases hle with hlt | ⟨heq, hle2⟩
    · exact Or.inl hlt
    · exact Or.inr ⟨heq, lt_of_le_of_ne hle2 hne⟩

/-- C6. On an engine whose chunk list and index counts agree (the state an
intact build produces), a search with any `k ≥ 1` returns exactly
`min k index.count` results — an over-large `k` is clamped, never an
error — ordered by non-increasing score with ties broken by strictly
ascending position. -/
theorem search_clamps_and_orders (e : EngineState) (q : List ℚ) (k : Nat)
    (_hk : 1 ≤ k) (hcount : e.chunks.length = e.vecs.length) :
    (searchSimilarChunks e q k).length = min k e.vecs.length
      ∧ (searchSimilarChunks e q k).Pairwise resRel := by
  have hall : ∀ p ∈ vecIndexSearch e.vecs q (min k e.chunks.length),
      p.1 < e.chunks.length := by
    intro p hp
    rw [hcount]
    exact vecIndexSearch_mem_lt e.vecs q _ p hp
  constructor
  · unfold searchSimilarChunks
    rw [filterMap_resFn_length hall, vecIndexSearch_length, hcount,
      Nat.min_assoc, Nat.min_self]
  · exact filterMap_resFn_pairwise hall (vecIndexSearch_pairwise e.vecs q _)

/-- A three-chunk, three-vector engine used by the C6 witness. -/
def engine3 : EngineState :=
  { chunks := [chunkRecA, chunkRecB,
      { source_file := "a.txt", chunk_id := 3, text := "z",
        char_count := 1, token_count := 1 }],
    vecs := sampleVecs3, k := 5 }

/-- C6 (witness). Searching the three-vector engine with `k = 10` is
covered by the clamp-and-order theorem: both hypotheses hold concretely. -/
theorem search_clamps_and_orders_witness :
    (1 ≤ 10 ∧ engine3.chunks.length = engine3.vecs.length)
      ∧ ((searchSimilarChunks engine3 [1] 10).length
            = min 10 engine3.vecs.length
          ∧ (searchSimilarChunks engine3 [1] 10).Pairwise resRel) :=
  ⟨⟨by decide, by decide⟩, search_clamps_and_orders engine3 [1] 10
    (by decide) (by decide)⟩

/-- Declarative side of the boundary search: `p` is an occurrence of the
delimiter `d` inside the window `text[s:e]`, it is the rightmost such
occurrence ("search backward from end for the nearest occurrence"), and it
lies strictly after the midpoint threshold `mid`. -/
def qualifyingPos (text d : List Char) (s e mid : Int) (p : Nat) : Prop :=
  inWindow text d s e p ∧ occursAt text d p
    ∧ (∀ q, inWindow text d s e q → occursAt text d q → q ≤ p)
    ∧ mid < (p : Int)

/-- No occurrence of the delimiter `d` inside the window lies strictly
after the midpoint threshold (this also covers "no occurrence at all"). -/
def noQualifying (text d : List Char) (s e mid : Int) : Prop :=
  ∀ q, inWindow text d s e q → occursAt text d q → (q : Int) ≤ mid

/-- The boundary rule as the claim literally words it ("set `end` to just
past that delimiter"): the same preference-ordered search as `findBreakGo`
but returning `position + len(delimiter)` instead of the source's
`position + len(delimiter) - 1`. -/
def findBreakLitGo (text : List Char) (s e mid : Int) :
    List (List Char) → Option Nat
  | [] => none
  | d :: ds =>
    match pyRfind text d s e with
    | some p => if mid < (p : Int) then some (p + d.length)
                else findBreakLitGo text s e mid ds
    | none => findBreakLitGo text s e mid ds

/-- The claim-literal boundary search over the delimiter preference list. -/
def findBreakLit (text : List Char) (s e : Int) (cs : Nat) : Option Nat :=
  findBreakLitGo text s e (s + (cs / 2 : Nat)) delims

/-- C7 (counterexample). On `"abcd. efghij"` with `start = 0`,
`end = chunk_size = 7`, the rightmost `". "` sits at position 4 (past the
midpoint 3); the source sets `end = 4 + 2 - 1 = 5` (just past the `'.'`),
while the claim's "just past that delimiter" gives `6`. -/
theorem findBreak_end_not_past_delimiter :
    findBreak "abcd. efghij".data 0 7 7 = some 5
      ∧ findBreakLit "abcd. efghij".data 0 7 7 = some 6
      ∧ findBreak "abcd. efghij".data 0 7 7
          ≠ findBreakLit "abcd. efghij".data 0 7 7 :=
  ⟨rfl, rfl, by decide⟩

theorem findBreakGo_eq_some_iff (text : List Char) (s e mid : Int) :
    ∀ (ds : List (List Char)) (r : Nat),
      findBreakGo text s e mid ds = some r ↔
        ∃ ds₁ d ds₂, ds = ds₁ ++ d :: ds₂
          ∧ (∀ d' ∈ ds₁, noQualifying text d' s e mid)
          ∧ ∃ p, qualifyingPos text d s e mid p ∧ r = p + d.length - 1 := by
  intro ds
  induction ds with
  | nil =>
    intro r
    constructor
    · intro h
      cases h
    · rintro ⟨ds₁, d, ds₂, habs, -, -⟩
      cases ds₁ <;> simp_all
  | cons d ds ih =>
    intro r
    unfold findBreakGo
    cases hf : pyRfind text d s e with
    | some p =>
      dsimp only
      by_cases hmid : mid < (p : Int)
      · rw [if_pos hmid]
        constructor
        · intro h
          injection h with h
          subst h
          obtain ⟨hw, ho, hmax⟩ := pyRfind_eq_some hf
          exact ⟨[], d, ds, rfl, by simp, p, ⟨hw, ho, hmax, hmid⟩, rfl⟩
        · rintro ⟨ds₁, d', ds₂, hds, hnoq, p', ⟨hw', ho', hmax', hmid'⟩, rfl⟩
          cases ds₁ with
          | nil =>
            rw [List.nil_append] at hds
            injection hds with h1 h2
            subst h1
            obtain ⟨hw, ho, hmax⟩ := pyRfind_eq_some hf
            have hpp : p' = p := Nat.le_antisymm (hmax p' hw' ho') (hmax' p hw ho)
            rw [hpp]
          | cons dd ds₁' =>
            rw [List.cons_append] at hds
            injection hds with h1 h2
            subst h1
            have hnq := hnoq d (List.mem_cons_self d ds₁')
            obtain ⟨hw, ho, _⟩ := pyRfind_eq_some hf
            exact absurd (hnq p hw ho) (not_le.mpr hmid)
      · rw [if_neg hmid]
        rw [ih r]
        constructor
        · rintro ⟨ds₁, d', ds₂, hds, hnoq, hp⟩
          refine ⟨d :: ds₁, d', ds₂, by rw [hds, List.cons_append], ?_, hp⟩
          intro d'' hd''
          rcases List.mem_cons.mp hd'' with rfl | hmem
          · intro q hwq hoq
            obtain ⟨hw, ho, hmax⟩ := pyRfind_eq_some hf
            have hqp : q ≤ p := hmax q hwq hoq
            have hple : (p : Int) ≤ mid := not_lt.mp hmid
            exact le_trans (by exact_mod_cast hqp) hple
          · exact hnoq d'' hmem
        · rintro ⟨ds₁, d', ds₂, hds, hnoq, p', hq, hr⟩
          cases ds₁ with
          | nil =>
            rw [List.nil_append] at hds
            injection hds with h1 h2
            subst h1
            obtain ⟨hw, ho, hmax⟩ := pyRfind_eq_some hf
            obtain ⟨hw', ho', hmax', hmid'⟩ := hq
            have hle : p' ≤ p := hmax p' hw' ho'
            exact absurd (lt_of_lt_of_le hmid' (by exact_mod_cast hle)) hmid
          | cons dd ds₁' =>
            rw [List.cons_append] at hds
            injection hds with h1 h2
            subst h2
            exact ⟨ds₁', d', ds₂, rfl,
              fun d'' hm => hnoq d'' (List.mem_cons_of_mem dd hm), p', hq, hr⟩
    | none =>
      dsimp only
      rw [ih r]
      constructor
      · rintro ⟨ds₁, d', ds₂, hds, hnoq, hp⟩
        refine ⟨d :: ds₁, d', ds₂, by rw [hds, List.cons_append], ?_, hp⟩
        intro d'' hd''
        rcases List.mem_cons.mp hd'' with rfl | hmem
        · intro q hwq hoq
          exact absurd hoq (pyRfind_eq_none hf q hwq)
        · exact hnoq d'' hmem
      · rintro ⟨ds₁, d', ds₂, hds, hnoq, p', hq, hr⟩
        cases ds₁ with
        | nil =>
          rw [List.nil_append] at hds
          injection hds with h1 h2
          subst h1
          obtain ⟨hw', ho', -, -⟩ := hq
          exact absurd ho' (pyRfind_eq_none hf p' hw')
        | cons dd ds₁' =>
          rw [List.cons_append] at hds
          injection hds with h1 h2
          subst h2
          exact ⟨ds₁', d', ds₂, rfl,
            fun d'' hm => hnoq d'' (List.mem_cons_of_mem dd hm), p', hq, hr⟩

/-- C7 (amended). The boundary choice of the chunking loop, characterized:
`findBreak` returns `r` exactly when the delimiter preference list splits
as `ds₁ ++ d :: ds₂` such that no delimiter before `d` has any occurrence
in the window strictly past the midpoint `start + chunk_size // 2`, `d`
has a rightmost window occurrence `p` strictly past that midpoint, and
`r = p + len(d) - 1` — one short of "just past the delimiter", i.e. just
past the delimiter's punctuation character. -/
theorem findBreak_boundary_characterization (text : List Char) (s e : Int)
    (cs : Nat) (r : Nat) :
    findBreak text s e cs = some r ↔
      ∃ ds₁ d ds₂, delims = ds₁ ++ d :: ds₂
        ∧ (∀ d' ∈ ds₁, noQualifying text d' s e (s + (cs / 2 : Nat)))
        ∧ ∃ p, qualifyingPos text d s e (s + (cs / 2 : Nat)) p
            ∧ r = p + d.length - 1 :=
  findBreakGo_eq_some_iff text s e (s + (cs / 2 : Nat)) delims r
